import Mathlib

/-!
A shallow embedding of the MU0 assembler and emulator (`src/mu0.c`) in Lean 4,
together with theorems settling the specification claims.

Source lines are modelled as `List Char`, exactly the bytes that `fgets`
delivers (so a line normally ends with a newline character, and an initially
blank line is the one-character list containing the newline).  Machine words
travel between the assembler and the emulator as the literal hexadecimal text
that `fprintf` writes and `fscanf` reads back.
-/

namespace MU0

/-- The reserved memory-mapped I/O address, `IO_ADDRESS` = `0xfff` in the C. -/
def ioAddress : Int := 4095

/-- C's `isspace` on the characters that can occur in a text line:
space, tab, newline, vertical tab, form feed, carriage return. -/
def isSpaceC (c : Char) : Bool :=
  c = ' ' || c = '\t' || c = '\n' || c = Char.ofNat 11 || c = Char.ofNat 12 || c = '\r'

/-- Lowercase hexadecimal digit for a value below 16, as `printf` `%x` prints it. -/
def hexDigitChar (n : Nat) : Char :=
  if n < 10 then Char.ofNat (48 + n) else Char.ofNat (87 + n)

/-- Hex digits of `n`, most significant first, empty for 0.  `fuel` bounds the
recursion; any `fuel ≥ n` gives the exact digits. -/
def hexDigitsAux : Nat → Nat → List Char
  | 0, _ => []
  | fuel + 1, n =>
    if n = 0 then [] else hexDigitsAux fuel (n / 16) ++ [hexDigitChar (n % 16)]

/-- The digits `%x` prints for `n` (at least one digit, so 0 prints as `0`). -/
def hexRep (n : Nat) : List Char :=
  if n = 0 then [Char.ofNat 48] else hexDigitsAux n n

/-- `printf` `%0wx`: the hex digits of `n`, zero-padded on the left to a
minimum width of `w`.  Wider values keep all their digits (no truncation). -/
def fmtMin (w : Nat) (n : Nat) : List Char :=
  List.replicate (w - (hexRep n).length) (Char.ofNat 48) ++ hexRep n

/-- The value a C `int` argument presents to `%x`: conversion to `unsigned int`. -/
def u32 (a : Int) : Nat := (a % 4294967296).toNat

/-- The value a C `long` argument presents to `%lx`: conversion to 64-bit unsigned. -/
def u64 (a : Int) : Nat := (a % 18446744073709551616).toNat

/-- Numeric value of one hex digit character, `none` if it is not a hex digit. -/
def hexVal (c : Char) : Option Nat :=
  if 48 ≤ c.toNat ∧ c.toNat ≤ 57 then some (c.toNat - 48)
  else if 97 ≤ c.toNat ∧ c.toNat ≤ 102 then some (c.toNat - 87)
  else if 65 ≤ c.toNat ∧ c.toNat ≤ 70 then some (c.toNat - 55)
  else none

def isHexDigitC (c : Char) : Bool := (hexVal c).isSome

/-- Fold a list of digit characters onto an accumulator in base 16. -/
def hexFold (init : Nat) (l : List Char) : Nat :=
  l.foldl (fun acc c => 16 * acc + (hexVal c).getD 0) init

/-- The value `fscanf` `%x` reads from a line: the leading run of hex digits
interpreted in base 16. -/
def parseHex (l : List Char) : Nat :=
  hexFold 0 (l.takeWhile isHexDigitC)

/-- Digits of `l` in the given base, reading the leading run of valid digits
(a hex-letter digit is invalid below base 11, etc.). -/
def digitsIn (base : Nat) (l : List Char) : Nat :=
  (l.takeWhile (fun c => (hexVal c).getD 16 < base)).foldl
    (fun acc c => base * acc + (hexVal c).getD 0) 0

/-- C `strtol(s, NULL, 0)`: skip whitespace, optional sign, then base
auto-detection — `0x`/`0X` followed by a hex digit means base 16, a leading
`0` means base 8, anything else base 10; no digits at all yields 0.  A value
outside the range of a 64-bit `long` saturates at `LONG_MAX` / `LONG_MIN`,
as C `strtol` specifies on overflow. -/
def strtol (cs : List Char) : Int :=
  let cs1 := cs.dropWhile isSpaceC
  let sgn : Int := match cs1 with
    | '-' :: _ => -1
    | _ => 1
  let cs2 : List Char := match cs1 with
    | '-' :: r => r
    | '+' :: r => r
    | _ => cs1
  let mag : Nat :=
    match cs2 with
    | '0' :: x :: r =>
      if (x = 'x' || x = 'X') && (match r with | c :: _ => isHexDigitC c | [] => false) then
        digitsIn 16 r
      else
        digitsIn 8 ('0' :: x :: r)
    | l => digitsIn 10 l
  let v : Int := sgn * mag
  if v < -9223372036854775808 then -9223372036854775808
  else if 9223372036854775807 < v then 9223372036854775807
  else v

/-! ## Label table (`add_label`, `get_address`) -/

abbrev Label := List Char

/-- The singly linked label list of the C, most recent definition first. -/
abbrev LabelTable := List (Label × Int)

/-- `add_label`: prepend a `(label, address)` node. -/
def add_label (table : LabelTable) (label : Label) (address : Int) : LabelTable :=
  (label, address) :: table

/-- `get_address`: first exact string match walking from the head; -1 if absent. -/
def get_address : LabelTable → Label → Int
  | [], _ => -1
  | (l, a) :: rest, label => if label = l then a else get_address rest label

/-- `sscanf(s, "%s", buf)`: skip whitespace, take the next whitespace-free token.
(When no token exists C leaves the buffer unchanged — uninitialized at first
use; we model that case as the empty token, which is how the source's own
comment describes it on the `STP` path.) -/
def scanToken (cs : List Char) : List Char :=
  (cs.dropWhile isSpaceC).takeWhile (fun c => !isSpaceC c)

/-- The `opcode_str` table: the three-letter mnemonics in encoding order. -/
def opcodeStr : List (List Char) :=
  [['L', 'D', 'A'], ['S', 'T', 'O'], ['A', 'D', 'D'], ['S', 'U', 'B'],
   ['J', 'M', 'P'], ['J', 'G', 'E'], ['J', 'N', 'E'], ['S', 'T', 'P']]

/-- The first index `i < 8` whose mnemonic matches the first three characters
of the line (`strncmp(line, opcode_str[i], 3)`); `none` if no mnemonic matches.
A line shorter than three characters matches nothing, as the terminating NUL
would mismatch every mnemonic character. -/
def findOpcode (line : List Char) : Option Nat :=
  (List.range 8).find? (fun i => line.take 3 = opcodeStr.getD i [])

/-- The text `fprintf(fout, "%01x%03x", i, addr)` writes for one instruction:
the opcode digit followed by the operand in hex, zero-padded to a minimum of
three digits — NOT masked to three digits when the operand is wider. -/
def encodeWord (i : Nat) (addr : Int) : List Char :=
  fmtMin 1 i ++ fmtMin 3 (u32 addr)

/-- What one source line makes the assembler's second pass do. -/
inductive LineResult where
  | emit (w : List Char)
  | skip
  | badLine
  | fatal
  deriving DecidableEq

/-- `process_opcode`: match a mnemonic, scan the operand token; a token led by
the label sigil is resolved through the table (unknown label is fatal,
`exit(1)`), any other token — including the empty one — goes through
`strtol`. -/
def process_opcode (line : List Char) (table : LabelTable) : LineResult :=
  match findOpcode line with
  | none => .badLine
  | some i =>
    match scanToken (line.drop 3) with
    | ':' :: name =>
      let a := get_address table name
      if a < 0 then .fatal else .emit (encodeWord i a)
    | tok => .emit (encodeWord i (strtol tok))

/-- `(int) line[1]` on the character-literal path: the character after the
sigil, or the terminating NUL (0) when the sigil is the last character.
(Assumes plain ASCII text, where `char` is non-negative.) -/
def charLit (rest : List Char) : Int :=
  match rest with
  | c :: _ => (c.toNat : Int)
  | [] => 0

/-- Second-pass classification of one line, mirroring the `if` chain in
`assemble`: label/comment/whitespace lines are ignored, `#` emits
`%04lx` of `strtol` of the remainder, `$` emits `%04x` of the next
character, everything else goes to `process_opcode`.  The empty line (a
C string whose first byte is NUL) falls through to `process_opcode`. -/
def asmLine (table : LabelTable) (line : List Char) : LineResult :=
  match line with
  | [] => process_opcode [] table
  | c :: rest =>
    if c = ':' ∨ c = ';' ∨ isSpaceC c then .skip
    else if c = '#' then .emit (fmtMin 4 (u64 (strtol rest)))
    else if c = '$' then .emit (fmtMin 4 (u32 (charLit rest)))
    else process_opcode (c :: rest) table

/-- `generate_label_table`: one pass over the lines.  A label line records the
token after the sigil at the current address and does not advance the counter;
a non-blank, non-comment line advances the counter by one.  Returns the table
together with the final value of the internal address counter. -/
def generate_label_table : List (List Char) → Nat → LabelTable → LabelTable × Nat
  | [], addr, table => (table, addr)
  | l :: ls, addr, table =>
    match l with
    | [] => generate_label_table ls (addr + 1) table
    | c :: rest =>
      if c = ':' then
        generate_label_table ls addr (add_label table (scanToken rest) (addr : Int))
      else if isSpaceC c || c = ';' then
        generate_label_table ls addr table
      else
        generate_label_table ls (addr + 1) table

/-- The second pass over all lines with a fixed table: collect the emitted
words in order; an unknown label aborts the whole assembly (`exit(1)`),
modelled as `none`; a bad line only loses its own word. -/
def assembleGo (table : LabelTable) : List (List Char) → Option (List (List Char))
  | [] => some []
  | l :: ls =>
    match asmLine table l with
    | .emit w => (assembleGo table ls).map (fun ws => w :: ws)
    | .skip => assembleGo table ls
    | .badLine => assembleGo table ls
    | .fatal => none

/-- `assemble`: build the label table, then run the second pass. -/
def assemble (src : List (List Char)) : Option (List (List Char)) :=
  assembleGo (generate_label_table src 0 []).1 src

/-! ## Memory (`memory_t`, `get`, `set`) -/

/-- The emulator's memory: the `data` array.  `read_machine_code` always sets
the `size` field to the number of loaded words, so `size` is the length of
`data`. -/
structure Memory where
  data : List Int
  deriving DecidableEq

def Memory.size (m : Memory) : Nat := m.data.length

/-- Outcome of `get`: a console read, a fatal out-of-range exit (`exit(139)`),
or a stored cell.  `val none` marks the one-past-the-end read that the C
bounds check (`address > size`, not `≥`) lets through: it reads memory the
program never wrote, so its value is not modelled. -/
inductive GetResult where
  | io
  | fault
  | val (v : Option Int)
  deriving DecidableEq

/-- `get(mem, address)`: the reserved I/O address is special-cased before the
bounds check; the bounds check compares the `int` address against the
`unsigned int` size, so the address is converted to `unsigned` first
(modelled as `address % 2^32`). -/
def Memory.get (m : Memory) (address : Int) : GetResult :=
  if address = ioAddress then .io
  else if (m.size : Int) < address % 4294967296 then .fault
  else if address < 0 then .val none
  else .val (m.data.get? address.toNat)

/-- Outcome of `set`: a console write of the value, a fatal out-of-range exit,
or a store.  `store none` marks the undefined one-past-the-end write. -/
inductive SetResult where
  | out (c : Int)
  | fault
  | store (d : Option (List Int))
  deriving DecidableEq

/-- `set(mem, address, value)`: symmetric to `get`; an in-range store writes
the value exactly as given, with no masking. -/
def Memory.set (m : Memory) (address value : Int) : SetResult :=
  if address = ioAddress then .out value
  else if (m.size : Int) < address % 4294967296 then .fault
  else if address.toNat < m.data.length ∧ 0 ≤ address then
    .store (some (m.data.set address.toNat value))
  else .store none

/-! ## Emulator (`get_opcode`, `get_operand`, `emulate`) -/

/-- `get_opcode`: `x >> 12`, an arithmetic shift, i.e. floor division. -/
def get_opcode (x : Int) : Int := Int.fdiv x 4096

/-- `get_operand`: `x & 0xfff` on a two's-complement `int`, i.e. the
mathematical residue in `[0, 4096)`. -/
def get_operand (x : Int) : Int := x % 4096

inductive Phase where
  | fetch
  | execute
  deriving DecidableEq

/-- The whole emulator configuration: the register file, the current phase of
the fetch-execute machine, the halt flag, the memory, and the console
streams (input characters still unread, output characters written so far). -/
structure EmuState where
  PC : Int
  ACC : Int
  IR : Int
  phase : Phase
  done : Bool
  mem : Memory
  input : List Int
  output : List Int
  deriving DecidableEq

/-- A memory read as the emulator experiences it: the reserved address
consumes one character of console input; a fault, an exhausted input stream,
or the undefined one-past-the-end read stop the model (`none`). -/
def readMem (m : Memory) (input : List Int) (address : Int) :
    Option (Int × List Int) :=
  match m.get address with
  | .io =>
    match input with
    | c :: rest => some (c, rest)
    | [] => none
  | .fault => none
  | .val (some v) => some (v, input)
  | .val none => none

/-- A memory write as the emulator experiences it: the reserved address
appends one character to console output and leaves memory untouched. -/
def writeMem (m : Memory) (output : List Int) (address value : Int) :
    Option (Memory × List Int) :=
  match m.set address value with
  | .out c => some (m, output ++ [c])
  | .fault => none
  | .store (some d) => some (⟨d⟩, output)
  | .store none => none

/-- The jump-with-inline-fetch that `JMP` and taken `JGE`/`JNE` perform:
`PC = operand; IR = get(mem, PC++)`, staying in the `EXECUTE` phase. -/
def jumpTo (s : EmuState) (target : Int) : Option EmuState :=
  (readMem s.mem s.input target).map fun p =>
    { s with PC := target + 1, IR := p.1, input := p.2 }

/-- One transition of the `while` loop body of `emulate`: a `FETCH` loads `IR`
from `PC` and advances `PC`; an `EXECUTE` dispatches on the opcode exactly as
the C `switch` does (an opcode above 7 matches no case and changes nothing). -/
def step (s : EmuState) : Option EmuState :=
  match s.phase with
  | .fetch =>
    (readMem s.mem s.input s.PC).map fun p =>
      { s with IR := p.1, PC := s.PC + 1, input := p.2, phase := .execute }
  | .execute =>
    let op := get_opcode s.IR
    let a := get_operand s.IR
    if op = 0 then
      (readMem s.mem s.input a).map fun p =>
        { s with ACC := p.1, input := p.2, phase := .fetch }
    else if op = 1 then
      (writeMem s.mem s.output a s.ACC).map fun p =>
        { s with mem := p.1, output := p.2, phase := .fetch }
    else if op = 2 then
      (readMem s.mem s.input a).map fun p =>
        { s with ACC := s.ACC + p.1, input := p.2, phase := .fetch }
    else if op = 3 then
      (readMem s.mem s.input a).map fun p =>
        { s with ACC := s.ACC - p.1, input := p.2, phase := .fetch }
    else if op = 4 then
      jumpTo s a
    else if op = 5 then
      if 0 ≤ s.ACC then jumpTo s a else some { s with phase := .fetch }
    else if op = 6 then
      if s.ACC ≠ 0 then jumpTo s a else some { s with phase := .fetch }
    else if op = 7 then
      some { s with done := true }
    else
      some s

/-- The `while (!done && (limit <= 0 || steps < limit))` loop of `emulate`.
`steps` counts completed transitions, incremented once per iteration exactly
as in the C.  `fuel` only bounds the model's recursion: exhausted fuel gives
`none`, while a genuine loop exit returns the final state and step count. -/
def emuLoop : Nat → Int → EmuState → Nat → Option (EmuState × Nat)
  | 0, _, _, _ => none
  | fuel + 1, limit, s, steps =>
    if s.done = false ∧ (limit ≤ 0 ∨ (steps : Int) < limit) then
      match step s with
      | none => none
      | some s2 => emuLoop fuel limit s2 (steps + 1)
    else
      some (s, steps)

/-- Registers and state at the top of `emulate`: everything zero, `FETCH`. -/
def initState (m : Memory) (input : List Int) : EmuState :=
  ⟨0, 0, 0, .fetch, false, m, input, []⟩

/-- `read_machine_code`: each line of the machine-code file is read back with
`fscanf` `%x` into one memory word. -/
def read_machine_code (lines : List (List Char)) : Memory :=
  ⟨lines.map (fun l => (parseHex l : Int))⟩

/-! ## Derived predicates and concrete programs used by the claims -/

/-- Whether a line advances the first pass's address counter: its first
character is not the label sigil, not the comment character, and not
whitespace (an empty line — first byte NUL — advances it too). -/
def countsLine (l : List Char) : Bool :=
  match l with
  | [] => true
  | c :: _ => !(c = ':' || c = ';' || isSpaceC c)

/-- A line of one of the shapes the source format defines: blank/whitespace,
comment, label definition, numeric literal, character literal, or a line
whose first three characters are a recognized mnemonic. -/
def validLine (l : List Char) : Bool :=
  match l with
  | [] => false
  | c :: _ => c = ':' || c = ';' || isSpaceC c || c = '#' || c = '$' || (findOpcode l).isSome

/-- Replay a whole sequence of label definitions through `add_label`,
starting from the empty table, as the first pass does. -/
def buildTable (defs : List (Label × Int)) : LabelTable :=
  defs.foldl (fun t p => add_label t p.1 p.2) []

/-- Line 1 of the four-line example program: `LDA :five`. -/
def c1line1 : List Char := ['L', 'D', 'A', ' ', ':', 'f', 'i', 'v', 'e', '\n']

/-- Line 2 of the four-line example program: `STP`. -/
def c1line2 : List Char := ['S', 'T', 'P', '\n']

/-- Line 3 of the four-line example program: `:five`. -/
def c1line3 : List Char := [':', 'f', 'i', 'v', 'e', '\n']

/-- Line 4 of the four-line example program: `#0005`. -/
def c1line4 : List Char := ['#', '0', '0', '0', '5', '\n']

/-- The four-line example source program. -/
def c1src : List (List Char) := [c1line1, c1line2, c1line3, c1line4]

/-- The machine-code text the example program assembles to. -/
def c1out : List (List Char) :=
  [['0', '0', '0', '2'], ['7', '0', '0', '0'], ['0', '0', '0', '5']]

/-- The configuration in which emulating the example program halts. -/
def c1final : EmuState :=
  ⟨2, 5, 28672, .execute, true, ⟨[2, 28672, 5]⟩, [], []⟩

/-- The one-line source program `STP`. -/
def c8src : List (List Char) := [['S', 'T', 'P', '\n']]

/-- Its machine code: the single word `7000`. -/
def c8out : List (List Char) := [['7', '0', '0', '0']]

/-- The configuration in which emulating the single `STP` word halts. -/
def c8final : EmuState :=
  ⟨1, 0, 28672, .execute, true, ⟨[28672]⟩, [], []⟩

/-- The source line `LDA 4096`, whose operand does not fit in 12 bits. -/
def c2line : List Char := ['L', 'D', 'A', ' ', '4', '0', '9', '6', '\n']

/-- The source line `#65536`, whose literal does not fit in 16 bits. -/
def c3line : List Char := ['#', '6', '5', '5', '3', '6', '\n']

/-- A source program exercising every valid line shape: a comment, a blank
line, a label definition, a numeric literal, a character literal, an
instruction with a label operand, and `STP`. -/
def c5src : List (List Char) :=
  [[';', ' ', 'c', '\n'], ['\n'], [':', 'l', 'a', 'b', '\n'], ['#', '5', '\n'],
   ['$', 'a', '\n'], ['L', 'D', 'A', ' ', ':', 'l', 'a', 'b', '\n'], ['S', 'T', 'P', '\n']]

/-- The words `c5src` assembles to. -/
def c5out : List (List Char) :=
  [['0', '0', '0', '5'], ['0', '0', '6', '1'], ['0', '0', '0', '0'], ['7', '0', '0', '0']]

/-- An `EXECUTE`-phase configuration holding a `JGE 002` instruction
(`IR = 0x5002`) with a positive accumulator. -/
def c9s : EmuState := ⟨0, 5, 20482, .execute, false, ⟨[7, 8, 9]⟩, [], []⟩

/-! ## Helper lemmas: hexadecimal formatting round-trips -/

theorem hexVal_hexDigitChar {d : Nat} (h : d < 16) :
    hexVal (hexDigitChar d) = some d := by
  interval_cases d <;> decide

theorem isHex_hexDigitChar {d : Nat} (h : d < 16) :
    isHexDigitC (hexDigitChar d) = true := by
  simp [isHexDigitC, hexVal_hexDigitChar h]

theorem hexFold_cons (i : Nat) (c : Char) (l : List Char) :
    hexFold i (c :: l) = hexFold (16 * i + (hexVal c).getD 0) l := rfl

theorem hexFold_append (i : Nat) (l1 l2 : List Char) :
    hexFold i (l1 ++ l2) = hexFold (hexFold i l1) l2 := by
  simp [hexFold, List.foldl_append]

theorem hexFold_eq_base (l : List Char) :
    ∀ i, hexFold i l = i * 16 ^ l.length + hexFold 0 l := by
  induction l with
  | nil => intro i; simp [hexFold]
  | cons c l ih =>
    intro i
    rw [hexFold_cons, hexFold_cons, ih, ih (16 * 0 + (hexVal c).getD 0)]
    simp [List.length_cons, pow_succ]
    ring

theorem mem_hexDigitsAux {fuel : Nat} :
    ∀ {n : Nat} {c : Char}, c ∈ hexDigitsAux fuel n → isHexDigitC c = true := by
  induction fuel with
  | zero => intro n c h; simp [hexDigitsAux] at h
  | succ fuel ih =>
    intro n c h
    rw [hexDigitsAux] at h
    split at h
    · simp at h
    · rcases List.mem_append.mp h with h1 | h1
      · exact ih h1
      · simp at h1
        subst h1
        exact isHex_hexDigitChar (Nat.mod_lt _ (by norm_num))

theorem hexFold_hexDigitsAux (fuel : Nat) :
    ∀ n i, n ≤ fuel →
      hexFold i (hexDigitsAux fuel n) = i * 16 ^ (hexDigitsAux fuel n).length + n := by
  induction fuel with
  | zero =>
    intro n i h
    interval_cases n
    simp [hexDigitsAux, hexFold]
  | succ fuel ih =>
    intro n i h
    rw [hexDigitsAux]
    split
    · rename_i hn
      subst hn
      simp [hexFold]
    · rename_i hn
      rw [hexFold_append, ih (n / 16) i (by omega)]
      rw [hexFold_cons]
      show _ = i * 16 ^ (hexDigitsAux fuel (n / 16) ++ [hexDigitChar (n % 16)]).length + n
      rw [hexVal_hexDigitChar (Nat.mod_lt _ (by norm_num))]
      simp only [hexFold, List.foldl_nil, List.length_append, List.length_singleton]
      calc 16 * (i * 16 ^ (hexDigitsAux fuel (n / 16)).length + n / 16) + n % 16
          = i * (16 ^ (hexDigitsAux fuel (n / 16)).length * 16) +
              (16 * (n / 16) + n % 16) := by ring
        _ = i * 16 ^ ((hexDigitsAux fuel (n / 16)).length + 1) + n := by
            rw [Nat.div_add_mod, pow_succ]

theorem length_hexDigitsAux (fuel : Nat) :
    ∀ n w, n < 16 ^ w → (hexDigitsAux fuel n).length ≤ w := by
  induction fuel with
  | zero => intro n w _; simp [hexDigitsAux]
  | succ fuel ih =>
    intro n w h
    rw [hexDigitsAux]
    split
    · simp
    · rename_i hn
      have hw : w ≠ 0 := by
        rintro rfl
        simp at h
        omega
      obtain ⟨w2, rfl⟩ : ∃ w2, w = w2 + 1 := ⟨w - 1, by omega⟩
      have hlt : n / 16 < 16 ^ w2 := by
        rw [Nat.div_lt_iff_lt_mul (by norm_num)]
        calc n < 16 ^ (w2 + 1) := h
          _ = 16 ^ w2 * 16 := pow_succ 16 w2
      have := ih (n / 16) w2 hlt
      simp only [List.length_append, List.length_singleton]
      omega

theorem mem_hexRep {n : Nat} {c : Char} (h : c ∈ hexRep n) :
    isHexDigitC c = true := by
  rw [hexRep] at h
  split at h
  · simp at h
    subst h
    decide
  · exact mem_hexDigitsAux h

theorem hexFold_hexRep (i n : Nat) :
    hexFold i (hexRep n) = i * 16 ^ (hexRep n).length + n := by
  rw [hexRep]
  split
  · rename_i hn
    subst hn
    show hexFold (16 * i + (hexVal (Char.ofNat 48)).getD 0) [] = _
    simp [hexFold, hexVal, Nat.mul_comm]
  · exact hexFold_hexDigitsAux n n i le_rfl

theorem length_hexRep_le {n w : Nat} (hw : 1 ≤ w) (h : n < 16 ^ w) :
    (hexRep n).length ≤ w := by
  rw [hexRep]
  split
  · simpa using hw
  · exact length_hexDigitsAux n n w h

theorem mem_fmtMin {w n : Nat} {c : Char} (h : c ∈ fmtMin w n) :
    isHexDigitC c = true := by
  rw [fmtMin] at h
  rcases List.mem_append.mp h with h1 | h1
  · have := List.eq_of_mem_replicate h1
    subst this
    decide
  · exact mem_hexRep h1

theorem takeWhile_hex_eq {l : List Char} (h : ∀ c ∈ l, isHexDigitC c = true) :
    l.takeWhile isHexDigitC = l := by
  induction l with
  | nil => rfl
  | cons c l ih =>
    rw [List.takeWhile_cons]
    simp only [h c (List.mem_cons_self c l), if_true]
    rw [ih (fun c hc => h c (List.mem_cons_of_mem _ hc))]

theorem hexFold_zero_replicate (k : Nat) :
    hexFold 0 (List.replicate k (Char.ofNat 48)) = 0 := by
  induction k with
  | zero => rfl
  | succ k ih =>
    rw [List.replicate_succ, hexFold_cons]
    simpa [hexVal] using ih

theorem parseHex_fmtMin (w n : Nat) : parseHex (fmtMin w n) = n := by
  rw [parseHex, takeWhile_hex_eq (fun c hc => mem_fmtMin hc), fmtMin,
    hexFold_append, hexFold_zero_replicate, hexFold_hexRep]
  simp

theorem length_fmtMin {w n : Nat} (hw : 1 ≤ w) (h : n < 16 ^ w) :
    (fmtMin w n).length = w := by
  rw [fmtMin]
  simp only [List.length_append, List.length_replicate]
  have := length_hexRep_le hw h
  omega

theorem parseHex_append (l1 l2 : List Char)
    (h1 : ∀ c ∈ l1, isHexDigitC c = true) (h2 : ∀ c ∈ l2, isHexDigitC c = true) :
    parseHex (l1 ++ l2) = parseHex l1 * 16 ^ l2.length + parseHex l2 := by
  have hall : ∀ c ∈ l1 ++ l2, isHexDigitC c = true := by
    intro c hc
    rcases List.mem_append.mp hc with h | h
    · exact h1 c h
    · exact h2 c h
  rw [parseHex, parseHex, parseHex, takeWhile_hex_eq hall, takeWhile_hex_eq h1,
    takeWhile_hex_eq h2, hexFold_append, hexFold_eq_base]

/-- The value printed for one instruction reads back as
`opcode * 4096 + operand` and occupies exactly four digits, provided the
operand fits in 12 bits. -/
theorem parseHex_encodeWord {i : Nat} {a : Int} (hi : i < 8) (h0 : 0 ≤ a)
    (h4 : a < 4096) :
    parseHex (encodeWord i a) = i * 4096 + a.toNat ∧ (encodeWord i a).length = 4 := by
  have hu : u32 a = a.toNat := by
    rw [u32, Int.emod_eq_of_lt h0 (by omega)]
  have htn : a.toNat < 4096 := by omega
  have hlen3 : (fmtMin 3 (u32 a)).length = 3 := by
    rw [hu]
    exact length_fmtMin (by norm_num) (by norm_num [htn])
  have hlen1 : (fmtMin 1 i).length = 1 := by
    apply length_fmtMin (by norm_num)
    norm_num
    omega
  constructor
  · rw [encodeWord, parseHex_append _ _ (fun c hc => mem_fmtMin hc)
      (fun c hc => mem_fmtMin hc), hlen3, parseHex_fmtMin, parseHex_fmtMin, hu]
    norm_num
  · rw [encodeWord, List.length_append, hlen1, hlen3]

/-- `findOpcode` only ever produces an index below 8. -/
theorem findOpcode_lt {line : List Char} {i : Nat} (h : findOpcode line = some i) :
    i < 8 := by
  have := List.mem_of_find?_eq_some h
  simpa using List.mem_range.mp this

/-! ## Helper lemmas: the emulation loop -/

/-- Extra fuel never changes a completed run: once the loop has genuinely
exited (rather than the model running out of fuel), any larger fuel yields
the same final state and step count. -/
theorem emuLoop_mono (f d : Nat) (limit : Int) (s : EmuState) (k : Nat)
    (r : EmuState × Nat) (h : emuLoop f limit s k = some r) :
    emuLoop (f + d) limit s k = some r := by
  induction f generalizing s k with
  | zero => simp [emuLoop] at h
  | succ f ih =>
    have heq : f + 1 + d = f + d + 1 := by omega
    rw [heq, emuLoop]
    rw [emuLoop] at h
    by_cases hc : s.done = false ∧ (limit ≤ 0 ∨ (k : Int) < limit)
    · rw [if_pos hc] at h ⊢
      cases hstep : step s with
      | none => rw [hstep] at h; exact Option.noConfusion h
      | some s2 => rw [hstep] at h; exact ih s2 (k + 1) h
    · rw [if_neg hc] at h ⊢
      exact h

/-! ## Helper lemmas: the label table -/

theorem foldl_add_label (defs : List (Label × Int)) :
    ∀ init : LabelTable,
      defs.foldl (fun t p => add_label t p.1 p.2) init = defs.reverse ++ init := by
  induction defs with
  | nil => intro init; simp
  | cons p defs ih =>
    intro init
    rw [List.foldl_cons, ih, List.reverse_cons, List.append_assoc]
    simp [add_label]

theorem get_address_append_of_absent {xs : LabelTable} {n : Label}
    (h : ∀ p ∈ xs, p.1 ≠ n) (ys : LabelTable) :
    get_address (xs ++ ys) n = get_address ys n := by
  induction xs with
  | nil => rfl
  | cons p xs ih =>
    obtain ⟨l, a⟩ := p
    have hl : l ≠ n := h (l, a) (List.mem_cons_self _ _)
    show get_address ((l, a) :: (xs ++ ys)) n = _
    simp only [get_address]
    rw [if_neg (fun hn => hl hn.symm)]
    exact ih (fun p hp => h p (List.mem_cons_of_mem _ hp))

/-! ## Helper lemmas: the two assembler passes -/

/-- The final value of the first pass's address counter: the starting value
plus the number of counting lines, independent of the table threaded through. -/
theorem generate_label_table_counter (ls : List (List Char)) :
    ∀ addr t, (generate_label_table ls addr t).2 =
      addr + (ls.filter countsLine).length := by
  induction ls with
  | nil => intro addr t; simp [generate_label_table]
  | cons l ls ih =>
    intro addr t
    cases l with
    | nil =>
      show (generate_label_table ls (addr + 1) t).2 = _
      rw [ih]
      simp [List.filter_cons, countsLine]
      omega
    | cons c rest =>
      show (if c = ':' then
              generate_label_table ls addr (add_label t (scanToken rest) (addr : Int))
            else if isSpaceC c || c = ';' then
              generate_label_table ls addr t
            else
              generate_label_table ls (addr + 1) t).2 = _
      by_cases h1 : c = ':'
      · rw [if_pos h1, ih]
        have hcount : countsLine (c :: rest) = false := by simp [countsLine, h1]
        rw [List.filter_cons, hcount]
        simp
      · rw [if_neg h1]
        by_cases h2 : (isSpaceC c || c = ';') = true
        · rw [if_pos h2, ih]
          have hcount : countsLine (c :: rest) = false := by
            show (!(decide (c = ':') || decide (c = ';') || isSpaceC c)) = false
            rcases (Bool.or_eq_true _ _).mp h2 with h | h
            · simp [h]
            · simp [h]
          rw [List.filter_cons, hcount]
          simp
        · rw [if_neg h2, ih]
          have h2' : ¬ isSpaceC c = true ∧ ¬ c = ';' := by
            simpa [not_or] using h2
          have hcount : countsLine (c :: rest) = true := by
            show (!(decide (c = ':') || decide (c = ';') || isSpaceC c)) = true
            simp [h1, h2'.1, h2'.2]
          rw [List.filter_cons, hcount]
          simp only [List.length_cons, if_true]
          omega

/-- `asmLine` on a non-empty line, unfolded to the `if` chain of the C. -/
theorem asmLine_cons (t : LabelTable) (c : Char) (rest : List Char) :
    asmLine t (c :: rest) =
      if c = ':' ∨ c = ';' ∨ isSpaceC c then .skip
      else if c = '#' then .emit (fmtMin 4 (u64 (strtol rest)))
      else if c = '$' then .emit (fmtMin 4 (u32 (charLit rest)))
      else process_opcode (c :: rest) t := rfl

/-- A line whose first three characters are a recognized mnemonic makes
`process_opcode` either abort on an unknown label or emit one word. -/
theorem process_opcode_emit_or_fatal (line : List Char) (t : LabelTable)
    (h : (findOpcode line).isSome = true) :
    process_opcode line t = .fatal ∨ ∃ w, process_opcode line t = .emit w := by
  obtain ⟨i, hi⟩ := Option.isSome_iff_exists.mp h
  simp only [process_opcode, hi]
  split
  · split
    · exact .inl rfl
    · exact .inr ⟨_, rfl⟩
  · exact .inr ⟨_, rfl⟩

/-- Classification of `asmLine` on a valid line: skipped lines are exactly
the ones the first pass does not count, and every counted valid line either
emits one word or aborts on an unknown label. -/
theorem asmLine_valid_cases (t : LabelTable) (l : List Char)
    (hv : validLine l = true) :
    (asmLine t l = .skip ∧ countsLine l = false) ∨
    ((asmLine t l = .fatal ∨ ∃ w, asmLine t l = .emit w) ∧ countsLine l = true) := by
  cases l with
  | nil => exact absurd hv (by decide)
  | cons c rest =>
    by_cases h1 : c = ':' ∨ c = ';' ∨ isSpaceC c
    · left
      refine ⟨by rw [asmLine_cons, if_pos h1], ?_⟩
      show (!(decide (c = ':') || decide (c = ';') || isSpaceC c)) = false
      rcases h1 with h | h | h
      · simp [h]
      · simp [h]
      · simp [h]
    · right
      have hcount : countsLine (c :: rest) = true := by
        show (!(decide (c = ':') || decide (c = ';') || isSpaceC c)) = true
        push_neg at h1
        simp [h1.1, h1.2.1, h1.2.2]
      refine ⟨?_, hcount⟩
      by_cases h2 : c = '#'
      · exact .inr ⟨_, by rw [asmLine_cons, if_neg h1, if_pos h2]⟩
      · by_cases h3 : c = '$'
        · exact .inr ⟨_, by rw [asmLine_cons, if_neg h1, if_neg h2, if_pos h3]⟩
        · have hop : (findOpcode (c :: rest)).isSome = true := by
            simp only [validLine, Bool.or_eq_true, decide_eq_true_eq] at hv
            push_neg at h1
            tauto
          rw [asmLine_cons, if_neg h1, if_neg h2, if_neg h3]
          exact process_opcode_emit_or_fatal _ t hop

/-- The second pass emits exactly one word per counted line whenever it
completes without a fatal label error. -/
theorem assembleGo_length (t : LabelTable) :
    ∀ ls out, (∀ l ∈ ls, validLine l = true) → assembleGo t ls = some out →
      out.length = (ls.filter countsLine).length := by
  intro ls
  induction ls with
  | nil =>
    intro out _ hs
    simp [assembleGo] at hs
    subst hs
    rfl
  | cons l ls ih =>
    intro out hv hs
    have hvl := hv l (List.mem_cons_self _ _)
    have hvs : ∀ x ∈ ls, validLine x = true :=
      fun x hx => hv x (List.mem_cons_of_mem _ hx)
    rw [assembleGo] at hs
    rcases asmLine_valid_cases t l hvl with ⟨hskip, hcount⟩ | ⟨hres, hcount⟩
    · rw [hskip] at hs
      rw [List.filter_cons, hcount]
      exact ih out hvs hs
    · rcases hres with hfat | ⟨w, hemit⟩
      · rw [hfat] at hs
        exact Option.noConfusion hs
      · rw [hemit] at hs
        obtain ⟨ws, hws, hout⟩ := Option.map_eq_some'.mp hs
        subst hout
        rw [List.filter_cons, hcount]
        simp only [List.length_cons, if_true]
        rw [ih ws hvs hws]

/-! ## Claim theorems -/

/-- C1: the four-line program `LDA :five` / `STP` / `:five` / `#0005`
assembles to exactly the three words `0002`, `7000`, `0005` in that order,
and emulating that output with no step limit (`limit = 0`) halts with
`ACC = 5` and `PC = 2` after exactly 4 steps of the step counter, which
increments once per FETCH-or-EXECUTE transition. -/
theorem c1_example_program_end_to_end (fuel : Nat) (hf : 5 ≤ fuel) :
    assemble c1src = some c1out ∧
    emuLoop fuel 0 (initState (read_machine_code c1out) []) 0 = some (c1final, 4) ∧
    c1final.ACC = 5 ∧ c1final.PC = 2 ∧ c1final.done = true := by
  refine ⟨by decide, ?_, by decide, by decide, by decide⟩
  have base : emuLoop 5 0 (initState (read_machine_code c1out) []) 0 =
      some (c1final, 4) := by decide
  have heq : 5 + (fuel - 5) = fuel := by omega
  have := emuLoop_mono 5 (fuel - 5) 0 (initState (read_machine_code c1out) []) 0
    (c1final, 4) base
  rwa [heq] at this

/-- Witness for C1 at the concrete fuel 5. -/
theorem c1_example_program_end_to_end_witness :
    assemble c1src = some c1out ∧
    emuLoop 5 0 (initState (read_machine_code c1out) []) 0 = some (c1final, 4) ∧
    c1final.ACC = 5 ∧ c1final.PC = 2 ∧ c1final.done = true :=
  c1_example_program_end_to_end 5 (le_refl 5)

/-- C8: the one-line program `STP` assembles to the single word `7000` — the
absent operand token scans as the empty string, which `strtol` turns into
operand 0 — and emulating that word with no step limit halts after exactly
2 steps with `ACC = 0`. -/
theorem c8_stp_alone (fuel : Nat) (hf : 3 ≤ fuel) :
    scanToken (List.drop 3 ['S', 'T', 'P', '\n']) = [] ∧
    strtol [] = 0 ∧
    assemble c8src = some c8out ∧
    emuLoop fuel 0 (initState (read_machine_code c8out) []) 0 = some (c8final, 2) ∧
    c8final.ACC = 0 ∧ c8final.done = true := by
  refine ⟨by decide, by decide, by decide, ?_, by decide, by decide⟩
  have base : emuLoop 3 0 (initState (read_machine_code c8out) []) 0 =
      some (c8final, 2) := by decide
  have heq : 3 + (fuel - 3) = fuel := by omega
  have := emuLoop_mono 3 (fuel - 3) 0 (initState (read_machine_code c8out) []) 0
    (c8final, 2) base
  rwa [heq] at this

/-- Witness for C8 at the concrete fuel 3. -/
theorem c8_stp_alone_witness :
    scanToken (List.drop 3 ['S', 'T', 'P', '\n']) = [] ∧
    strtol [] = 0 ∧
    assemble c8src = some c8out ∧
    emuLoop 3 0 (initState (read_machine_code c8out) []) 0 = some (c8final, 2) ∧
    c8final.ACC = 0 ∧ c8final.done = true :=
  c8_stp_alone 3 (le_refl 3)

/-- C9: in the `EXECUTE` phase, `JGE` performs the jump-with-inline-fetch
exactly when the signed accumulator is non-negative, and `JNE` exactly when
the accumulator is nonzero; in the non-branching case the machine returns to
`FETCH` with `PC` (and everything else) unchanged. -/
theorem c9_jge_jne_branch_conditions (s : EmuState) (hph : s.phase = .execute) :
    (get_opcode s.IR = 5 →
      (0 ≤ s.ACC → step s = jumpTo s (get_operand s.IR)) ∧
      (s.ACC < 0 → step s = some { s with phase := .fetch })) ∧
    (get_opcode s.IR = 6 →
      (s.ACC ≠ 0 → step s = jumpTo s (get_operand s.IR)) ∧
      (s.ACC = 0 → step s = some { s with phase := .fetch })) := by
  constructor
  · intro h5
    constructor
    · intro hacc
      simp [step, hph, h5, hacc]
    · intro hacc
      have hn : ¬ 0 ≤ s.ACC := by omega
      simp [step, hph, h5, hn]
  · intro h6
    constructor
    · intro hacc
      simp [step, hph, h6, hacc]
    · intro hacc
      simp [step, hph, h6, hacc]

/-- Witness for C9: a `JGE 002` instruction with `ACC = 5 ≥ 0` branches. -/
theorem c9_jge_jne_branch_conditions_witness :
    0 ≤ c9s.ACC ∧ step c9s = jumpTo c9s (get_operand c9s.IR) :=
  ⟨by decide, ((c9_jge_jne_branch_conditions c9s rfl).1 (by decide)).1 (by decide)⟩

/-- C6: replaying any sequence of label definitions through `add_label`,
a name that is defined (possibly several times) resolves to the address of
its most recent definition — here, the occurrence `(n, a)` after which no
later definition uses the name `n` again. -/
theorem c6_last_definition_wins (pre post : List (Label × Int)) (n : Label)
    (a : Int) (h : ∀ p ∈ post, p.1 ≠ n) :
    get_address (buildTable (pre ++ (n, a) :: post)) n = a := by
  rw [buildTable, foldl_add_label, List.append_nil, List.reverse_append,
    List.reverse_cons, List.append_assoc]
  rw [get_address_append_of_absent (fun p hp => h p (List.mem_reverse.mp hp))]
  show get_address ((n, a) :: pre.reverse) n = a
  simp [get_address]

/-- Witness for C6: `b` defined at 5 then redefined at 7 resolves to 7. -/
theorem c6_last_definition_wins_witness :
    get_address
      (buildTable [(['a'], 1), (['b'], 5), (['b'], 7), (['x'], 9)]) ['b'] = 7 :=
  c6_last_definition_wins [(['a'], 1), (['b'], 5)] [(['x'], 9)] ['b'] 7 (by decide)

/-- C5: for a source program all of whose lines are valid shapes, if the
assembly completes then the number of emitted words equals the number of
non-blank, non-comment, non-label lines, which also equals the final value
of the first pass's address counter. -/
theorem c5_word_count (src out : List (List Char))
    (hv : ∀ l ∈ src, validLine l = true) (hs : assemble src = some out) :
    out.length = (src.filter countsLine).length ∧
    (generate_label_table src 0 []).2 = (src.filter countsLine).length := by
  constructor
  · exact assembleGo_length _ src out hv hs
  · simpa using generate_label_table_counter src 0 []

/-- Witness for C5 on a program with every valid line shape. -/
theorem c5_word_count_witness :
    c5out.length = (c5src.filter countsLine).length ∧
    (generate_label_table c5src 0 []).2 = (c5src.filter countsLine).length :=
  c5_word_count c5src c5out (by decide) (by decide)

/-- C7: for every memory (any size, including sizes below 4095), reading and
writing the reserved address 4095 never touches the storage array: the
special case fires before the bounds check, a read consumes exactly one
console-input character and returns it, a write appends the value to console
output, and the memory value threaded through is unchanged. -/
theorem c7_reserved_address_io (m : Memory) (v c : Int) (input : List Int)
    (output : List Int) :
    Memory.get m 4095 = .io ∧
    Memory.set m 4095 v = .out v ∧
    readMem m (c :: input) 4095 = some (c, input) ∧
    writeMem m output 4095 v = some (m, output ++ [v]) := by
  refine ⟨?_, ?_, ?_, ?_⟩ <;>
    simp [Memory.get, Memory.set, readMem, writeMem, ioAddress]

/-- C10: an in-range, non-reserved store writes the value exactly as given —
no 16-bit masking — leaves the size and every other cell unchanged, and a
subsequent read returns the stored value, even for negative values or values
of 2^16 and above. -/
theorem c10_store_roundtrip (m : Memory) (a : Nat) (v : Int) (input : List Int)
    (output : List Int) (ha : a < m.size) (hio : (a : Int) ≠ 4095) :
    writeMem m output (a : Int) v = some (⟨m.data.set a v⟩, output) ∧
    (Memory.mk (m.data.set a v)).size = m.size ∧
    (m.data.set a v).get? a = some v ∧
    (∀ b : Nat, b ≠ a → (m.data.set a v).get? b = m.data.get? b) ∧
    readMem ⟨m.data.set a v⟩ input (a : Int) = some (v, input) := by
  have hlen : a < m.data.length := ha
  have hmod : ((a : Int) % 4294967296) ≤ (a : Int) := by omega
  have hnf : ¬ ((m.size : Int) < (a : Int) % 4294967296) := by
    have : (a : Int) < (m.size : Int) := by exact_mod_cast ha
    omega
  have hset : Memory.set m (a : Int) v = .store (some (m.data.set a v)) := by
    rw [Memory.set, if_neg (by rw [ioAddress]; exact hio), if_neg hnf,
      if_pos ⟨by simpa using hlen, by omega⟩]
    simp
  have hsize : (Memory.mk (m.data.set a v)).size = m.size := by
    simp [Memory.size]
  refine ⟨?_, hsize, ?_, ?_, ?_⟩
  · rw [writeMem, hset]
  · exact List.get?_set_eq_of_lt v hlen
  · intro b hb
    exact List.get?_set_ne v _ (fun he => hb he.symm)
  · have hget : Memory.get ⟨m.data.set a v⟩ (a : Int) = .val (some v) := by
      rw [Memory.get, if_neg (by rw [ioAddress]; exact hio)]
      rw [if_neg (by rw [show (Memory.size ⟨m.data.set a v⟩) = m.size from hsize]; exact hnf)]
      rw [if_neg (by omega)]
      simp only [Int.toNat_natCast]
      rw [List.get?_set_eq_of_lt v hlen]
    rw [readMem.eq_def, hget]

/-- Witness for C10: storing `-3` (a negative accumulator value) at address 0
of a one-word memory and reading it back. -/
theorem c10_store_roundtrip_witness :
    writeMem ⟨[0]⟩ [] ((0 : Nat) : Int) (-3) =
      some (⟨(Memory.mk [0]).data.set 0 (-3)⟩, []) ∧
    (Memory.mk ((Memory.mk [0]).data.set 0 (-3))).size = Memory.size ⟨[0]⟩ ∧
    ((Memory.mk [0]).data.set 0 (-3)).get? 0 = some (-3) ∧
    (∀ b : Nat, b ≠ 0 →
      ((Memory.mk [0]).data.set 0 (-3)).get? b = (Memory.mk [0]).data.get? b) ∧
    readMem ⟨(Memory.mk [0]).data.set 0 (-3)⟩ [] ((0 : Nat) : Int) =
      some (-3, []) :=
  c10_store_roundtrip ⟨[0]⟩ 0 (-3) [] [] (by decide) (by decide)

/-- C2 counterexample: the line `LDA 4096` emits the five-character text
`01000` (value 4096 when read back), not the claimed 16-bit word with the
operand masked to 12 bits (`encodeWord 0 (4096 % 4096)`, text `0000`); the
top nibble of what is actually read back is 1, not the `LDA` opcode 0. -/
theorem c2_counterexample :
    asmLine [] c2line = .emit ['0', '1', '0', '0', '0'] ∧
    parseHex ['0', '1', '0', '0', '0'] = 4096 ∧
    (['0', '1', '0', '0', '0'] : List Char) ≠ encodeWord 0 (4096 % 4096) ∧
    get_opcode 4096 ≠ 0 := by
  refine ⟨by decide, by decide, by decide, by decide⟩

/-- C2 amended: for an opcode line whose operand (resolved through the label
table or parsed from the token) lies in `[0, 4096)`, the emitted word is
exactly four hex digits reading back as `opcode * 4096 + operand` — top
4 bits the opcode, bottom 12 bits the operand.  Operands of 4096 and above
are NOT masked: the printed operand field simply widens beyond 3 digits
(see the counterexample). -/
theorem c2_operand_field_amended (line : List Char) (table : LabelTable)
    (i : Nat) (a : Int) (hfind : findOpcode line = some i) (h0 : 0 ≤ a)
    (h4 : a < 4096)
    (hsrc : (∃ name, scanToken (line.drop 3) = ':' :: name ∧
               get_address table name = a) ∨
            ((∀ name, scanToken (line.drop 3) ≠ ':' :: name) ∧
               strtol (scanToken (line.drop 3)) = a)) :
    process_opcode line table = .emit (encodeWord i a) ∧
    (encodeWord i a).length = 4 ∧
    parseHex (encodeWord i a) = i * 4096 + a.toNat ∧
    parseHex (encodeWord i a) % 4096 = a.toNat ∧
    parseHex (encodeWord i a) / 4096 = i := by
  have hi := findOpcode_lt hfind
  obtain ⟨hparse, hlen⟩ := parseHex_encodeWord hi h0 h4
  have hemit : process_opcode line table = .emit (encodeWord i a) := by
    simp only [process_opcode, hfind]
    rcases hsrc with ⟨name, hscan, hget⟩ | ⟨hnot, hval⟩
    · split
      · rename_i name2 heq
        rw [hscan] at heq
        obtain ⟨-, hnm⟩ := List.cons.inj heq
        subst hnm
        rw [hget, if_neg (by omega)]
      · rename_i hne
        exact absurd hscan (hne name)
    · split
      · rename_i name2 heq
        exact absurd heq (hnot name2)
      · rw [hval]
  refine ⟨hemit, hlen, hparse, ?_, ?_⟩
  · rw [hparse]
    omega
  · rw [hparse]
    omega

/-- Witness for the amended C2: `LDA :five` against a table binding `five`
to address 2 emits the four-digit word `0002`. -/
theorem c2_operand_field_amended_witness :
    process_opcode c1line1 [(['f', 'i', 'v', 'e'], 2)] = .emit (encodeWord 0 2) ∧
    (encodeWord 0 2).length = 4 ∧
    parseHex (encodeWord 0 2) = 0 * 4096 + (2 : Int).toNat ∧
    parseHex (encodeWord 0 2) % 4096 = (2 : Int).toNat ∧
    parseHex (encodeWord 0 2) / 4096 = 0 :=
  c2_operand_field_amended c1line1 [(['f', 'i', 'v', 'e'], 2)] 0 2 (by decide)
    (by decide) (by decide) (.inl ⟨['f', 'i', 'v', 'e'], by decide, by decide⟩)

/-- C3 counterexample: the line `#65536` emits the five-character text
`10000` (value 65536 when read back), not the claimed 16-bit truncation
`65536 % 2^16 = 0` (text `0000`). -/
theorem c3_counterexample :
    asmLine [] c3line = .emit ['1', '0', '0', '0', '0'] ∧
    parseHex ['1', '0', '0', '0', '0'] = 65536 ∧
    (['1', '0', '0', '0', '0'] : List Char) ≠ fmtMin 4 (65536 % 65536) := by
  refine ⟨by decide, by decide, by decide⟩

/-- C3 amended: a `#` line parses its remainder with C `strtol` semantics —
base auto-detection (decimal by default, `0x` hex honored, leading-zero
octal) and saturation at `LONG_MAX` / `LONG_MIN` on overflow — and emits the
parsed value as-is, zero-padded to a minimum of four hex digits but never
truncated to 16 bits: the emitted text reads back as exactly the parsed
value (values of 2^16 and above simply print more than four digits).  The
last two conjuncts exhibit the saturation: the decimal literal 2^63 parses
to `LONG_MAX` and `#9223372036854775808` therefore emits
`7fffffffffffffff`. -/
theorem c3_numeric_literal_amended (table : LabelTable) (rest : List Char)
    (n : Nat) (hp : strtol rest = (n : Int)) (hn : n < 18446744073709551616) :
    asmLine table ('#' :: rest) = .emit (fmtMin 4 n) ∧
    parseHex (fmtMin 4 n) = n ∧
    strtol ['0', 'x', '1', 'f'] = 31 ∧
    strtol ['3', '1'] = 31 ∧
    strtol ['0', '1', '7'] = 15 ∧
    strtol ['9', '2', '2', '3', '3', '7', '2', '0', '3', '6', '8', '5', '4',
      '7', '7', '5', '8', '0', '8'] = 9223372036854775807 ∧
    asmLine [] ('#' :: ['9', '2', '2', '3', '3', '7', '2', '0', '3', '6', '8',
      '5', '4', '7', '7', '5', '8', '0', '8', '\n']) =
      .emit (fmtMin 4 9223372036854775807) := by
  have hu : u64 ((n : Nat) : Int) = n := by
    rw [u64, Int.emod_eq_of_lt (by omega) (by exact_mod_cast hn)]
    simp
  refine ⟨?_, parseHex_fmtMin 4 n, by decide, by decide, by decide, by decide,
    by decide⟩
  rw [asmLine_cons, if_neg (by decide), if_pos rfl, hp, hu]

/-- Witness for the amended C3: `#70000` emits a word reading back as
70000, a value of 2^16 and above. -/
theorem c3_numeric_literal_amended_witness :
    asmLine [] ('#' :: ['7', '0', '0', '0', '0', '\n']) = .emit (fmtMin 4 70000) ∧
    parseHex (fmtMin 4 70000) = 70000 ∧
    strtol ['0', 'x', '1', 'f'] = 31 ∧
    strtol ['3', '1'] = 31 ∧
    strtol ['0', '1', '7'] = 15 ∧
    strtol ['9', '2', '2', '3', '3', '7', '2', '0', '3', '6', '8', '5', '4',
      '7', '7', '5', '8', '0', '8'] = 9223372036854775807 ∧
    asmLine [] ('#' :: ['9', '2', '2', '3', '3', '7', '2', '0', '3', '6', '8',
      '5', '4', '7', '7', '5', '8', '0', '8', '\n']) =
      .emit (fmtMin 4 9223372036854775807) :=
  c3_numeric_literal_amended [] ['7', '0', '0', '0', '0', '\n'] 70000 (by decide)
    (by decide)

/-- C4 counterexample: with a one-word memory (size 1), address 1 lies
outside `[0, size)` and is not the reserved address, yet neither `get` nor
`set` is fatal — the C bounds check is `address > size`, so the first
address past the end slips through to an out-of-bounds array access
instead of terminating. -/
theorem c4_counterexample :
    Memory.size ⟨[7]⟩ = 1 ∧
    ¬ (0 ≤ (1 : Int) ∧ (1 : Int) < (Memory.size ⟨[7]⟩ : Int)) ∧
    (1 : Int) ≠ 4095 ∧
    Memory.get ⟨[7]⟩ 1 ≠ .fault ∧
    Memory.set ⟨[7]⟩ 1 5 ≠ .fault := by
  refine ⟨by decide, by decide, by decide, by decide, by decide⟩

/-- C4 amended: for any `int`-representable non-reserved address and any
memory whose size fits in a signed 32-bit `int` (always true for loaded
programs), `get` and `set` are fatal exactly when the address is negative
or strictly greater than the size — so one address past the end
(`address = size`) is NOT fatal, per the counterexample. -/
theorem c4_out_of_range_fatal_amended (m : Memory) (a v : Int)
    (hsz : (m.size : Int) < 2147483648) (hlo : -2147483648 ≤ a)
    (hhi : a < 2147483648) (hio : a ≠ 4095) :
    (Memory.get m a = .fault ∧ Memory.set m a v = .fault) ↔
      (a < 0 ∨ (m.size : Int) < a) := by
  have hioa : ¬ a = ioAddress := by rw [ioAddress]; exact hio
  by_cases hc : (m.size : Int) < a % 4294967296
  · have hget : Memory.get m a = .fault := by
      rw [Memory.get, if_neg hioa, if_pos hc]
    have hset : Memory.set m a v = .fault := by
      rw [Memory.set, if_neg hioa, if_pos hc]
    constructor
    · intro _
      omega
    · intro _
      exact ⟨hget, hset⟩
  · have hget : Memory.get m a ≠ .fault := by
      rw [Memory.get, if_neg hioa, if_neg hc]
      split <;> simp
    have hset : Memory.set m a v ≠ .fault := by
      rw [Memory.set, if_neg hioa, if_neg hc]
      split <;> simp
    constructor
    · intro h
      exact absurd h.1 hget
    · intro h
      exfalso
      omega

/-- Witness for the amended C4: address 2 on a one-word memory is fatal. -/
theorem c4_out_of_range_fatal_amended_witness :
    (Memory.get ⟨[7]⟩ 2 = .fault ∧ Memory.set ⟨[7]⟩ 2 0 = .fault) ↔
      ((2 : Int) < 0 ∨ (Memory.size ⟨[7]⟩ : Int) < 2) :=
  c4_out_of_range_fatal_amended ⟨[7]⟩ 2 0 (by decide) (by decide) (by decide)
    (by decide)

end MU0
